import Mathlib

/-!
# Mixed Darcy assembly (`verification/veri_darcy/veri_darcy.cc`)

A shallow embedding of the assembly part of the program `Step20`.

* A `double` is a value of an arbitrary field `K` (exact arithmetic): the definitions run on `ℚ`
  and the calculus statements are read on `ℝ`.
* What the finite element library hands to `assemble_system` (shape function values, divergences,
  quadrature weights and points, face normals, the dof numbering, the faces of the mesh) is data
  the definitions take as arguments.
* A loop `for (unsigned int i=0; i<n; ++i)` is a left fold over `List.finRange n`, a loop over a
  global index a left fold over `List.range n`.
-/

namespace Step20

/-! ## Constants of `namespace data` -/

namespace data

def problem_degree : Nat := 2
def refinement_level : Nat := 3
def dimension : Nat := 2

def rho_f {K : Type} [Field K] : K := 1
def eta {K : Type} [Field K] : K := 1
def top {K : Type} [Field K] : K := 1
def bottom {K : Type} [Field K] : K := 0
def left {K : Type} [Field K] : K := 0

/-- The constant `right = PI`: the library constant `numbers::PI` is the `double` nearest to π,
which is this dyadic rational. -/
def right {K : Type} [Field K] : K := 884279719003555 / 281474976710656
def lambda {K : Type} [Field K] : K := 1

end data

/-! ## Points and tensors -/

/-- The type `Point<dim>`: `dim` coordinates. -/
abbrev Point (K : Type) (dim : Nat) := Fin dim → K

/-- The type `Tensor<1,dim>`. -/
abbrev Tensor1 (K : Type) (dim : Nat) := Fin dim → K

/-- The type `Tensor<2,dim>`. -/
abbrev Tensor2 (K : Type) (dim : Nat) := Fin dim → Fin dim → K

section tensors

variable {K : Type} [Field K] {dim : Nat}

/-- The product `double * Tensor<1,dim>`. -/
def Tensor1.scale (c : K) (v : Tensor1 K dim) : Tensor1 K dim :=
  fun k => c * v k

/-- The product `Tensor<1,dim> * Tensor<2,dim>`: contraction over the index of the vector and the
first index of the matrix. -/
def Tensor1.contract (v : Tensor1 K dim) (t : Tensor2 K dim) : Tensor1 K dim :=
  fun j => ∑ k, v k * t k j

/-- The product `Tensor<1,dim> * Tensor<1,dim>`: the scalar product. -/
def Tensor1.dot (a b : Tensor1 K dim) : K :=
  ∑ k, a k * b k

/-- The assignment `t[a][b] = v`. -/
def Tensor2.set (t : Tensor2 K dim) (a b : Fin dim) (v : K) : Tensor2 K dim :=
  fun r c => if r = a ∧ c = b then v else t r c

end tensors

/-! ## Coefficient and boundary functions -/

section functions

variable {K : Type} [Field K] {dim : Nat}

/-- The function `RightHandSide<dim>::value`. The local `permeability` of the source is computed
and never used; the value returned is `2*p[1]*rho_f`. Reading `p[1]` needs `1 < dim`. -/
def RightHandSide.value (hd : 1 < dim) (p : Point K dim) : K :=
  2 * p ⟨1, hd⟩ * data.rho_f

/-- The function `RightHandSide<dim>::value_list` (inherited): `value` at every point. -/
def RightHandSide.value_list (hd : 1 < dim) {n : Nat} (points : Fin n → Point K dim) :
    Fin n → K :=
  fun q => RightHandSide.value hd (points q)

/-- The function `PressureBoundaryValues<dim>::value`: `-2./3*rho_f` at every point. -/
def PressureBoundaryValues.value (_p : Point K dim) : K :=
  -2 / 3 * data.rho_f

/-- The function `PressureBoundaryValues<dim>::value_list` (inherited): `value` at every point. -/
def PressureBoundaryValues.value_list {n : Nat} (points : Fin n → Point K dim) : Fin n → K :=
  fun q => PressureBoundaryValues.value (points q)

/-- The function `KInverse<dim>::value_list`: at every point the tensor is cleared and its
diagonal entries are then set to `permeability = 1.0`, one after the other. -/
def KInverse.value_list {n : Nat} (_points : Fin n → Point K dim) : Fin n → Tensor2 K dim :=
  fun _p =>
    let permeability : K := 1
    (List.finRange dim).foldl (fun t d => Tensor2.set t d d permeability) (fun _ _ => 0)

/-- The function `ExactSolution<dim>::vector_value`: writes components `0`, `1`, `2` of `values`
(a vector of `dim+1` entries). -/
def ExactSolution.vector_value (hd : 1 < dim) (p : Point K dim) (values : Fin (dim + 1) → K) :
    Fin (dim + 1) → K :=
  let permeability : K := 1
  let v0 := Function.update values ⟨0, by omega⟩ 0
  let v1 := Function.update v0 ⟨1, by omega⟩
    (data.rho_f * (1 - p ⟨1, hd⟩ * p ⟨1, hd⟩) * permeability)
  Function.update v1 ⟨2, by omega⟩
    (-data.rho_f * (p ⟨1, hd⟩ - (1 / 3) * p ⟨1, hd⟩ * p ⟨1, hd⟩ * p ⟨1, hd⟩))

end functions

/-! ## Cell data and the local system -/

/-- What `FEValues<dim>` gives on one cell after `reinit`: for local index `i` and quadrature
point `q`, the velocity part, its divergence and the pressure part of shape function `i`, the
weight `JxW(q)` and the quadrature point. -/
structure FEValues (K : Type) (dim dofs_per_cell n_q_points : Nat) where
  velocity_value : Fin dofs_per_cell → Fin n_q_points → Tensor1 K dim
  velocity_divergence : Fin dofs_per_cell → Fin n_q_points → K
  pressure_value : Fin dofs_per_cell → Fin n_q_points → K
  JxW : Fin n_q_points → K
  get_quadrature_points : Fin n_q_points → Point K dim

/-- What `FEFaceValues<dim>` gives on one face after `reinit`. -/
structure FEFaceValues (K : Type) (dim dofs_per_cell n_face_q_points : Nat) where
  velocity_value : Fin dofs_per_cell → Fin n_face_q_points → Tensor1 K dim
  normal_vector : Fin n_face_q_points → Tensor1 K dim
  JxW : Fin n_face_q_points → K
  get_quadrature_points : Fin n_face_q_points → Point K dim

/-- The pair `local_matrix`, `local_rhs` of `assemble_system`. -/
structure LocalSystem (K : Type) (dofs_per_cell : Nat) where
  local_matrix : Fin dofs_per_cell → Fin dofs_per_cell → K
  local_rhs : Fin dofs_per_cell → K

section local_assembly

variable {K : Type} [Field K] {dim dofs_per_cell n_q_points n_face_q_points : Nat}

/-- The statement `local_matrix(i,j) += v`. -/
def FullMatrix.add (m : Fin dofs_per_cell → Fin dofs_per_cell → K) (i j : Fin dofs_per_cell)
    (v : K) : Fin dofs_per_cell → Fin dofs_per_cell → K :=
  fun a b => if a = i ∧ b = j then m a b + v else m a b

/-- The statement `local_rhs(i) += v`. -/
def Vector.add (r : Fin dofs_per_cell → K) (i : Fin dofs_per_cell) (v : K) :
    Fin dofs_per_cell → K :=
  fun a => if a = i then r a + v else r a

/-- The body of the loop over `j` (lines 439-446): the term added to `local_matrix(i,j)` at
quadrature point `q`, with the operators associated as C++ does, from the left. -/
def matrix_term (fe : FEValues K dim dofs_per_cell n_q_points)
    (k_inverse_values : Fin n_q_points → Tensor2 K dim)
    (q : Fin n_q_points) (i j : Fin dofs_per_cell) : K :=
  let phi_i_u := fe.velocity_value i q
  let div_phi_i_u := fe.velocity_divergence i q
  let phi_i_p := fe.pressure_value i q
  let phi_j_u := fe.velocity_value j q
  let div_phi_j_u := fe.velocity_divergence j q
  let phi_j_p := fe.pressure_value j q
  (Tensor1.dot (Tensor1.contract (Tensor1.scale (1 / data.lambda) phi_i_u) (k_inverse_values q))
      phi_j_u
    - div_phi_i_u * phi_j_p
    - phi_i_p * div_phi_j_u)
  * fe.JxW q

/-- The body of the loop over `i` (lines 432-453): the loop over `j` on the matrix, then the
update of `local_rhs(i)`. -/
def volume_step_i (fe : FEValues K dim dofs_per_cell n_q_points)
    (k_inverse_values : Fin n_q_points → Tensor2 K dim) (rhs_values : Fin n_q_points → K)
    (q : Fin n_q_points) (s : LocalSystem K dofs_per_cell) (i : Fin dofs_per_cell) :
    LocalSystem K dofs_per_cell :=
  let phi_i_p := fe.pressure_value i q
  { local_matrix :=
      (List.finRange dofs_per_cell).foldl
        (fun m j => FullMatrix.add m i j (matrix_term fe k_inverse_values q i j)) s.local_matrix
    local_rhs := Vector.add s.local_rhs i (phi_i_p * rhs_values q * fe.JxW q) }

/-- The body of the loop over `q` (lines 430-453). -/
def volume_step_q (fe : FEValues K dim dofs_per_cell n_q_points)
    (k_inverse_values : Fin n_q_points → Tensor2 K dim) (rhs_values : Fin n_q_points → K)
    (s : LocalSystem K dofs_per_cell) (q : Fin n_q_points) : LocalSystem K dofs_per_cell :=
  (List.finRange dofs_per_cell).foldl (volume_step_i fe k_inverse_values rhs_values q) s

/-- Lines 419-453 of `assemble_system` on one cell: `local_matrix = 0`, `local_rhs = 0`, the
three `value_list` calls (the values of `K` are computed by the source and never read), and the
loop over the quadrature points. -/
def assemble_cell_volume (hd : 1 < dim) (fe : FEValues K dim dofs_per_cell n_q_points) :
    LocalSystem K dofs_per_cell :=
  let rhs_values := RightHandSide.value_list hd fe.get_quadrature_points
  let k_inverse_values := KInverse.value_list fe.get_quadrature_points
  (List.finRange n_q_points).foldl (volume_step_q fe k_inverse_values rhs_values)
    { local_matrix := fun _ _ => 0, local_rhs := fun _ => 0 }

end local_assembly


/-! ## Face terms and the scatter into the global system -/

/-- One active cell as `assemble_system` sees it: the values of `fe_values` on the cell, for each
of its `GeometryInfo<dim>::faces_per_cell = 2*dim` faces whether the face is at the boundary, its
boundary id and the values of `fe_face_values` on it, and the global numbers of its dofs. -/
structure CellData (K : Type) (dim dofs_per_cell n_q_points n_face_q_points : Nat) where
  fe_values : FEValues K dim dofs_per_cell n_q_points
  face_at_boundary : Fin (2 * dim) → Bool
  face_boundary_id : Fin (2 * dim) → Nat
  fe_face_values : Fin (2 * dim) → FEFaceValues K dim dofs_per_cell n_face_q_points
  local_dof_indices : Fin dofs_per_cell → Nat

/-- The pair `system_matrix`, `system_rhs`, indexed by global dof numbers. The sparsity pattern
holds every pair of dofs of a common cell, so every `add` of the scatter finds its entry. -/
structure LinearSystem (K : Type) where
  system_matrix : Nat → Nat → K
  system_rhs : Nat → K

section global_assembly

variable {K : Type} [Field K] {dim dofs_per_cell n_q_points n_face_q_points : Nat}

/-- The term of lines 472-475 added to `local_rhs(i)` at face quadrature point `q`. -/
def face_term (ffe : FEFaceValues K dim dofs_per_cell n_face_q_points)
    (boundary_values : Fin n_face_q_points → K) (q : Fin n_face_q_points)
    (i : Fin dofs_per_cell) : K :=
  -(Tensor1.dot (ffe.velocity_value i q) (ffe.normal_vector q) * boundary_values q * ffe.JxW q)

/-- The body of the loop over the faces (lines 459-476): a face that is at the boundary and has
boundary id `1` adds its terms to `local_rhs`, any other face leaves it as it is. -/
def face_step (cell : CellData K dim dofs_per_cell n_q_points n_face_q_points)
    (r : Fin dofs_per_cell → K) (face_no : Fin (2 * dim)) : Fin dofs_per_cell → K :=
  if cell.face_at_boundary face_no && (cell.face_boundary_id face_no == 1) then
    let ffe := cell.fe_face_values face_no
    let boundary_values := PressureBoundaryValues.value_list ffe.get_quadrature_points
    (List.finRange n_face_q_points).foldl
      (fun r q => (List.finRange dofs_per_cell).foldl
        (fun r i => Vector.add r i (face_term ffe boundary_values q i)) r) r
  else r

/-- Lines 456-476 of `assemble_system`: the loop over the faces of the cell. -/
def assemble_cell_faces (cell : CellData K dim dofs_per_cell n_q_points n_face_q_points)
    (s : LocalSystem K dofs_per_cell) : LocalSystem K dofs_per_cell :=
  { local_matrix := s.local_matrix
    local_rhs := (List.finRange (2 * dim)).foldl (face_step cell) s.local_rhs }

/-- The call `system_matrix.add (r, c, v)`. -/
def SparseMatrix.add (m : Nat → Nat → K) (r c : Nat) (v : K) : Nat → Nat → K :=
  fun a b => if a = r ∧ b = c then m a b + v else m a b

/-- The statement `system_rhs(r) += v`. -/
def BlockVector.add (x : Nat → K) (r : Nat) (v : K) : Nat → K :=
  fun a => if a = r then x a + v else x a

/-- Lines 479-486 of `assemble_system`: the local system is added into the global one through
`local_dof_indices`. -/
def scatter (local_dof_indices : Fin dofs_per_cell → Nat) (loc : LocalSystem K dofs_per_cell)
    (sys : LinearSystem K) : LinearSystem K :=
  { system_matrix :=
      (List.finRange dofs_per_cell).foldl
        (fun m i => (List.finRange dofs_per_cell).foldl
          (fun m j => SparseMatrix.add m (local_dof_indices i) (local_dof_indices j)
            (loc.local_matrix i j)) m)
        sys.system_matrix
    system_rhs :=
      (List.finRange dofs_per_cell).foldl
        (fun x i => BlockVector.add x (local_dof_indices i) (loc.local_rhs i)) sys.system_rhs }

/-- The local system of one cell: volume terms, then face terms (lines 419-476). -/
def assemble_cell_local (hd : 1 < dim)
    (cell : CellData K dim dofs_per_cell n_q_points n_face_q_points) :
    LocalSystem K dofs_per_cell :=
  assemble_cell_faces cell (assemble_cell_volume hd cell.fe_values)

/-- The body of the loop over the cells (lines 417-487). -/
def assemble_cell (hd : 1 < dim) (sys : LinearSystem K)
    (cell : CellData K dim dofs_per_cell n_q_points n_face_q_points) : LinearSystem K :=
  scatter cell.local_dof_indices (assemble_cell_local hd cell) sys

/-- The loop over the active cells (lines 414-487), from the zero matrix and zero right hand
side that `make_grid_and_dofs` leaves. -/
def assemble_cells (hd : 1 < dim)
    (cells : List (CellData K dim dofs_per_cell n_q_points n_face_q_points)) : LinearSystem K :=
  cells.foldl (assemble_cell hd) { system_matrix := fun _ _ => 0, system_rhs := fun _ => 0 }

end global_assembly

/-! ## The two boundary passes -/

/-- A `std::map<types::global_dof_index, double>`: its entries, in the order of the keys. -/
abbrev StdMap (K : Type) := List (Nat × K)

/-- The statement `m[k] = v` on a `std::map`: the entry of key `k` is replaced, or a new entry
is put at its place in the order of the keys. -/
def StdMap.assign {K : Type} : StdMap K → Nat → K → StdMap K
  | [], k, v => [(k, v)]
  | (k', v') :: m, k, v =>
    if k < k' then (k, v) :: (k', v') :: m
    else if k = k' then (k, v) :: m
    else (k', v') :: StdMap.assign m k v

/-- The value a `std::map` holds for key `k`, if any. -/
def StdMap.find {K : Type} : StdMap K → Nat → Option K
  | [], _ => none
  | (k', v') :: m, k => if k = k' then some v' else StdMap.find m k

/-- What the dof handler knows of a dof for the selection of boundary dofs: `component d` is the
vector component of the shape function of dof `d` (`0 .. dim-1` for the velocity block, `dim` for
the pressure block), and `boundary_faces` lists the faces at the boundary, each with its boundary
id and the global numbers of the dofs on it. -/
structure DoFHandler where
  n_dofs : Nat
  component : Nat → Nat
  boundary_faces : List (Nat × List Nat)

/-- Modelled from the spec: the library function `DoFTools::extract_boundary_dofs`, which is not
part of the repository. The spec (4.4, step 1): a dof is selected when its field role matches
the component mask and it lies on a face tagged with one of the boundary ids of the pass. -/
def extract_boundary_dofs (dof_handler : DoFHandler) (component_mask : List Bool)
    (boundary_ids : List Nat) : Nat → Bool :=
  fun d =>
    component_mask.getD (dof_handler.component d) false
      && dof_handler.boundary_faces.any (fun f => boundary_ids.contains f.1 && f.2.contains d)

/-- Modelled from the spec: one elimination of the library function
`MatrixTools::apply_boundary_values`, which is not part of the repository. The spec (4.4,
step 2): the row of the dof is zeroed except the diagonal, set to 1, the right hand side entry is
set to `v`, and for the remaining rows `k`, `rhs[k] -= A[k][dof]*v` and then `A[k][dof] = 0`. -/
def eliminate_dof {K : Type} [Field K] (dof : Nat) (v : K) (sys : LinearSystem K) :
    LinearSystem K :=
  { system_matrix := fun r c =>
      if r = dof ∧ c = dof then 1 else if r = dof ∨ c = dof then 0 else sys.system_matrix r c
    system_rhs := fun k =>
      if k = dof then v else sys.system_rhs k - sys.system_matrix k dof * v }

/-- Modelled from the spec: the library function `MatrixTools::apply_boundary_values`, which is
not part of the repository: every entry of the map is eliminated, in the order of the map. -/
def apply_boundary_values {K : Type} [Field K] (boundary_values : StdMap K)
    (sys : LinearSystem K) : LinearSystem K :=
  boundary_values.foldl (fun s e => eliminate_dof e.1 e.2 s) sys

/-- The failures the specification names (section 7). No statement of `assemble_system` raises
one of them. -/
inductive Failure where
  | ConfigurationError
  | AssemblyError
  | SolverError
  deriving DecidableEq, Repr

section boundary_passes

variable {K : Type} [Field K]

/-- Lines 492-494: `std::vector<bool> componentVector(dim + 1, true)` followed by
`componentVector[dim] = false`. -/
def componentVector (dim : Nat) : List Bool :=
  (List.replicate (dim + 1) true).set dim false

/-- Lines 496-497: the set `boundary_ids` of Pass A holds the single id `0`. -/
def boundary_ids : List Nat := [0]

/-- Lines 502-504: every dof flagged in `selected_dofs` gets the value `0.0` in
`boundary_values_flux`. -/
def boundary_values_flux (n_dofs : Nat) (selected_dofs : Nat → Bool) : StdMap K :=
  (List.range n_dofs).foldl (fun m i => if selected_dofs i then StdMap.assign m i 0 else m) []

/-- Lines 511-512: `std::vector<bool> componentVector2(dim + 1, false)` followed by
`componentVector2[dim+1] = true`. The write is one past the last entry `dim` of the vector: it
lands in the spare bits of the storage word and none of the `dim+1` entries changes, which is
what `List.set` does with an index out of range. -/
def componentVector2 (dim : Nat) : List Bool :=
  (List.replicate (dim + 1) false).set (dim + 1) true

/-- Lines 518-519: the set `boundary_ids2` of Pass B holds the single id `2`. -/
def boundary_ids2 : List Nat := [2]

/-- Lines 524-526: every dof flagged in `selected_dofs2` gets the value `-rho_f` in
`boundary_values_flux2`. -/
def boundary_values_flux2 (n_dofs2 : Nat) (selected_dofs2 : Nat → Bool) : StdMap K :=
  (List.range n_dofs2).foldl
    (fun m i => if selected_dofs2 i then StdMap.assign m i (-data.rho_f) else m) []

/-- Lines 489-538 for given results `selected_dofs`, `selected_dofs2` of the two dof selections:
both maps are filled, then `apply_boundary_values` runs on the first and on the second. There
is no comparison of the two maps and no failure path. -/
def apply_boundary_passes (n_dofs : Nat) (selected_dofs selected_dofs2 : Nat → Bool)
    (sys : LinearSystem K) : Except Failure (LinearSystem K) :=
  let flux : StdMap K := boundary_values_flux n_dofs selected_dofs
  let flux2 : StdMap K := boundary_values_flux2 n_dofs selected_dofs2
  Except.ok (apply_boundary_values flux2 (apply_boundary_values flux sys))

/-- The dof selection of Pass A (lines 499-500). -/
def selected_dofs (dim : Nat) (dof_handler : DoFHandler) : Nat → Bool :=
  extract_boundary_dofs dof_handler (componentVector dim) boundary_ids

/-- The dof selection of Pass B (lines 521-522). -/
def selected_dofs2 (dim : Nat) (dof_handler : DoFHandler) : Nat → Bool :=
  extract_boundary_dofs dof_handler (componentVector2 dim) boundary_ids2

/-- The function `MixedLaplaceProblem<dim>::assemble_system`: the loop over the cells, then the
two boundary passes. -/
def assemble_system {dim dofs_per_cell n_q_points n_face_q_points : Nat} (hd : 1 < dim)
    (cells : List (CellData K dim dofs_per_cell n_q_points n_face_q_points))
    (dof_handler : DoFHandler) : Except Failure (LinearSystem K) :=
  apply_boundary_passes dof_handler.n_dofs (selected_dofs dim dof_handler)
    (selected_dofs2 dim dof_handler) (assemble_cells hd cells)

end boundary_passes

/-! ## The writes into the component masks -/

/-- The index of the write of line 494, `componentVector[dim] = false`. -/
def componentVector_index (dim : Nat) : Nat := dim

/-- The index of the write of line 512, `componentVector2[dim+1] = true`. -/
def componentVector2_index (dim : Nat) : Nat := dim + 1

/-- The write `v[i] = b` into a `std::vector<bool>`, with the range check that `operator[]`
does not make: `none` when `i` is not an index of `v`. -/
def checked_write (v : List Bool) (i : Nat) (b : Bool) : Option (List Bool) :=
  if i < v.length then some (v.set i b) else none

/-! ## Boundary ids of the coarse mesh -/

/-- A face of a cell of the triangulation, as the tagging loop of `make_grid_and_dofs` sees it:
its centre, whether it is at the boundary, and its boundary id. -/
structure TriaFace (K : Type) (dim : Nat) where
  center : Point K dim
  at_boundary : Bool
  boundary_id : Nat

/-- The library constant `numbers::internal_face_boundary_id`, the boundary id of a face that is
not at the boundary: the largest value of the 8 bit type `types::boundary_id`. -/
def internal_face_boundary_id : Nat := 255

section tagging

variable {K : Type} [Field K] [DecidableEq K] {dim : Nat}

/-- The body of the tagging loop (lines 315-318) on one face. Reading `center()[dim-1]` needs
`0 < dim`. -/
def tag_face (hd : 0 < dim) (f : TriaFace K dim) : TriaFace K dim :=
  if f.center ⟨dim - 1, by omega⟩ = data.top then { f with boundary_id := 1 }
  else if f.center ⟨dim - 1, by omega⟩ = data.bottom then { f with boundary_id := 2 }
  else f

/-- The tagging loop of `make_grid_and_dofs` (lines 311-318) over the cells and the
`2*dim` faces of each cell. A face two cells share appears in both and gets the same id in
both, the id being decided by its centre. -/
def tag_boundary_faces (hd : 0 < dim) (cells : List (Fin (2 * dim) → TriaFace K dim)) :
    List (Fin (2 * dim) → TriaFace K dim) :=
  cells.map (fun cell f => tag_face hd (cell f))

end tagging

section coarse

variable {K : Type} [Field K]

/-- Modelled from the spec: the library function `GridGenerator::subdivided_hyper_rectangle`
(the mesh service `generateRectangleMesh` of the spec), which is not part of the repository, in
two dimensions with `nx` cells along `x` and one along `y`. Cell `k` spans
`[x_k, x_(k+1)] × [bottom, top]`; its faces are, in the order of the library, left, right, bottom,
top. A face at the boundary starts with boundary id `0`, a face between two cells with
`internal_face_boundary_id`. -/
def subdivided_hyper_rectangle (nx : Nat) (bottom_left top_right : Point K 2) :
    List (Fin 4 → TriaFace K 2) :=
  (List.range nx).map fun (k : Nat) =>
    let h : K := (top_right 0 - bottom_left 0) / (nx : K)
    let x0 : K := bottom_left 0 + (k : K) * h
    let x1 : K := bottom_left 0 + ((k : K) + 1) * h
    let y0 : K := bottom_left 1
    let y1 : K := top_right 1
    let face (c : Point K 2) (b : Bool) : TriaFace K 2 :=
      { center := c, at_boundary := b, boundary_id := if b then 0 else internal_face_boundary_id }
    ![face ![x0, (y0 + y1) / 2] (decide (k = 0)),
      face ![x1, (y0 + y1) / 2] (decide (k + 1 = nx)),
      face ![(x0 + x1) / 2, y0] true,
      face ![(x0 + x1) / 2, y1] true]

/-- The mesh of `make_grid_and_dofs` in two dimensions, before the tagging loop:
`subdivisions = (4, 1)` over `[left, right] × [bottom, top]`. -/
def coarse_mesh : List (Fin 4 → TriaFace K 2) :=
  subdivided_hyper_rectangle 4 ![data.left, data.bottom] ![data.right, data.top]

end coarse

/-! ## The analytic reference in two dimensions -/

section exact

variable {K : Type} [Field K]

/-- The velocity components `0`, `1` of `ExactSolution<2>::vector_value` at the point `(x,y)`,
written into a vector that starts at zero. -/
def exact_velocity (x y : K) : Tensor1 K 2 :=
  fun k => ExactSolution.vector_value (by decide : 1 < 2) ![x, y] (fun _ => 0) k.castSucc

/-- The pressure component `dim = 2` of `ExactSolution<2>::vector_value` at the point
`(x,y)`. -/
def exact_pressure (x y : K) : K :=
  ExactSolution.vector_value (by decide : 1 < 2) ![x, y] (fun _ => 0) (Fin.last 2)

end exact

/-! ## Sample data -/

section samples

/-- Values on a cell with two shape functions in two dimensions, the first a velocity function
and the second a pressure function, and two quadrature points. -/
def sample_fe_values : FEValues ℚ 2 2 2 :=
  { velocity_value := fun i q => if i = 0 then ![1 + q.val, 2] else ![0, 0]
    velocity_divergence := fun i _ => if i = 0 then 3 else 0
    pressure_value := fun i _ => if i = 0 then 0 else 5
    JxW := fun q => 1 / 2 + q.val
    get_quadrature_points := fun q => ![1, 7 + q.val] }

/-- A cell on `sample_fe_values` with one face quadrature point: face `3` is at the boundary
with id `1`, face `0` is at the boundary with id `0`, faces `1` and `2` are interior. Its two
dofs have the global numbers `0` and `1`. -/
def sample_cell : CellData ℚ 2 2 2 1 :=
  { fe_values := sample_fe_values
    face_at_boundary := fun f => f.val == 3 || f.val == 0
    face_boundary_id := fun f =>
      if f.val = 3 then 1 else if f.val = 0 then 0 else internal_face_boundary_id
    fe_face_values := fun _ =>
      { velocity_value := fun i _ => if i = 0 then ![0, 1] else ![0, 0]
        normal_vector := fun _ => ![0, 1]
        JxW := fun _ => 1 / 2
        get_quadrature_points := fun _ => ![1 / 2, 1] }
    local_dof_indices := fun i => i.val }

/-- A dof handler in two dimensions with a velocity dof `0` (component `1`) and a pressure dof
`1` (component `2`), and four faces at the boundary, with the boundary ids `0`, `1`, `2`, `3`:
dof `0` lies on all four, dof `1` on those with the ids `0`, `2` and `3`. -/
def sample_dof_handler : DoFHandler :=
  { n_dofs := 2
    component := fun d => if d = 0 then 1 else 2
    boundary_faces := [(0, [0, 1]), (1, [0]), (2, [0, 1]), (3, [0, 1])] }

/-- A single cell `[0,1] × [0,1]` in two dimensions, all four faces at the boundary with the
boundary id `0`; the faces are, in the order of the library, left, right, bottom, top. -/
def sample_tria_cell : Fin (2 * 2) → TriaFace ℚ 2 :=
  ![{ center := ![0, 1 / 2], at_boundary := true, boundary_id := 0 },
    { center := ![1, 1 / 2], at_boundary := true, boundary_id := 0 },
    { center := ![1 / 2, 0], at_boundary := true, boundary_id := 0 },
    { center := ![1 / 2, 1], at_boundary := true, boundary_id := 0 }]

end samples

/-! ## Lemmas on the loops -/

section map_lemmas

variable {V : Type}

/-- Looking up a key after `m[k] = v`. -/
theorem StdMap.find_assign (m : StdMap V) (k : Nat) (v : V) (a : Nat) :
    StdMap.find (StdMap.assign m k v) a = if a = k then some v else StdMap.find m a := by
  induction m with
  | nil => simp [StdMap.assign, StdMap.find]
  | cons e m ih =>
    obtain ⟨k', v'⟩ := e
    unfold StdMap.assign
    by_cases h1 : k < k'
    · rw [if_pos h1]
      by_cases hak : a = k
      · simp [StdMap.find, hak]
      · simp [StdMap.find, hak]
    · rw [if_neg h1]
      by_cases h2 : k = k'
      · rw [if_pos h2]
        subst h2
        by_cases hak : a = k
        · simp [StdMap.find, hak]
        · simp [StdMap.find, hak]
      · rw [if_neg h2]
        by_cases hak' : a = k'
        · have hk : ¬ k' = k := fun h => h2 h.symm
          simp [StdMap.find, hak', hk]
        · simp [StdMap.find, hak', ih]

/-- Every entry of the map after `m[k] = v` is the new entry or an entry of `m`. -/
theorem StdMap.mem_assign (m : StdMap V) (k : Nat) (v : V) (e : Nat × V)
    (he : e ∈ StdMap.assign m k v) : e = (k, v) ∨ e ∈ m := by
  induction m with
  | nil =>
    simp only [StdMap.assign, List.mem_singleton] at he
    exact Or.inl he
  | cons e' m ih =>
    obtain ⟨k', v'⟩ := e'
    unfold StdMap.assign at he
    by_cases h1 : k < k'
    · rw [if_pos h1] at he
      rcases List.mem_cons.1 he with h | h
      · exact Or.inl h
      · exact Or.inr h
    · rw [if_neg h1] at he
      by_cases h2 : k = k'
      · rw [if_pos h2] at he
        rcases List.mem_cons.1 he with h | h
        · exact Or.inl h
        · exact Or.inr (List.mem_cons_of_mem _ h)
      · rw [if_neg h2] at he
        rcases List.mem_cons.1 he with h | h
        · exact Or.inr (h ▸ List.mem_cons_self _ _)
        · rcases ih h with h3 | h3
          · exact Or.inl h3
          · exact Or.inr (List.mem_cons_of_mem _ h3)

/-- A key the map holds a value for is the key of one of its entries. -/
theorem StdMap.mem_of_find (m : StdMap V) (a : Nat) (v : V) (h : StdMap.find m a = some v) :
    ∃ w, (a, w) ∈ m := by
  induction m with
  | nil => simp [StdMap.find] at h
  | cons e m ih =>
    obtain ⟨k', v'⟩ := e
    unfold StdMap.find at h
    by_cases hak : a = k'
    · exact ⟨v', hak ▸ List.mem_cons_self _ _⟩
    · rw [if_neg hak] at h
      obtain ⟨w, hw⟩ := ih h
      exact ⟨w, List.mem_cons_of_mem _ hw⟩

/-- The loop that fills a map of boundary values with the constant `v`: the map holds `v` for
the flagged dofs below `n` and nothing else. -/
theorem find_fill (v : V) (sel : Nat → Bool) (n d : Nat) :
    StdMap.find ((List.range n).foldl (fun m i => if sel i then StdMap.assign m i v else m) []) d
      = if d < n ∧ sel d = true then some v else none := by
  induction n with
  | zero => simp [StdMap.find]
  | succ n ih =>
    rw [List.range_succ, List.foldl_append, List.foldl_cons, List.foldl_nil]
    by_cases hs : sel n = true
    · rw [if_pos hs, StdMap.find_assign, ih]
      by_cases hdn : d = n
      · subst hdn
        simp [hs]
      · rw [if_neg hdn]
        have : d < n + 1 ↔ d < n := by omega
        simp only [this]
    · rw [if_neg hs, ih]
      by_cases hdn : d = n
      · subst hdn
        simp [hs]
      · have : d < n + 1 ↔ d < n := by omega
        simp only [this]

/-- Every entry of a map filled with the constant `v` has the value `v`. -/
theorem mem_fill (v : V) (sel : Nat → Bool) (n : Nat) (e : Nat × V)
    (he : e ∈ (List.range n).foldl (fun m i => if sel i then StdMap.assign m i v else m) []) :
    e.2 = v := by
  induction n with
  | zero => simp at he
  | succ n ih =>
    rw [List.range_succ, List.foldl_append, List.foldl_cons, List.foldl_nil] at he
    by_cases hs : sel n = true
    · rw [if_pos hs] at he
      rcases StdMap.mem_assign _ _ _ _ he with h | h
      · rw [h]
      · exact ih h
    · rw [if_neg hs] at he
      exact ih he

end map_lemmas

section loop_lemmas

variable {K : Type} [Field K]

/-- A left fold whose every step adds `g x` to an observed quantity adds the sum of `g`. -/
theorem foldl_observe {S α : Type} (f : S → α → S) (obs : S → K) (g : α → K)
    (h : ∀ s x, obs (f s x) = obs s + g x) (l : List α) (s : S) :
    obs (l.foldl f s) = obs s + (l.map g).sum := by
  induction l generalizing s with
  | nil => simp
  | cons x xs ih => simp [List.foldl_cons, ih, h, add_assoc]

/-- A sum over `List.finRange n` is the sum over `Fin n`. -/
theorem sum_map_finRange {n : Nat} (g : Fin n → K) :
    ((List.finRange n).map g).sum = ∑ i, g i := by
  rw [Fin.sum_univ_def]

/-- The fold of `KInverse::value_list` over the diagonal: entry `(a,b)` of the result is `1`
when `a = b` is one of the indices visited, and the entry of the start tensor otherwise. -/
theorem foldl_diag_set {dim : Nat} (l : List (Fin dim)) (t : Tensor2 K dim) (a b : Fin dim) :
    (l.foldl (fun t d => Tensor2.set t d d (1 : K)) t) a b
      = if a = b ∧ a ∈ l then 1 else t a b := by
  induction l generalizing t with
  | nil => simp
  | cons x xs ih =>
    rw [List.foldl_cons, ih]
    by_cases hab : a = b
    · subst hab
      by_cases hx : a ∈ xs
      · simp [hx]
      · by_cases hax : a = x
        · simp [hx, hax, Tensor2.set]
        · simp [hx, hax, Tensor2.set]
    · simp only [hab, false_and, if_false, Tensor2.set]
      rw [if_neg]
      rintro ⟨h1, h2⟩
      exact hab (h1.trans h2.symm)

/-- The tensor returned by `KInverse::value_list` is the identity at every point. -/
theorem KInverse_value_list_eq {dim n : Nat} (points : Fin n → Point K dim) (q : Fin n)
    (a b : Fin dim) :
    KInverse.value_list points q a b = if a = b then 1 else 0 := by
  unfold KInverse.value_list
  show (List.foldl (fun t d => Tensor2.set t d d (1 : K)) (fun _ _ => 0) (List.finRange dim)) a b
    = _
  rw [foldl_diag_set]
  simp [List.mem_finRange]

/-- The loop over `j` adds `matrix_term q i j` to entry `(i,j)` of the matrix. -/
theorem volume_step_i_matrix {dim n nq : Nat} (fe : FEValues K dim n nq)
    (kinv : Fin nq → Tensor2 K dim) (rhs : Fin nq → K) (q : Fin nq) (s : LocalSystem K n)
    (i a b : Fin n) :
    (volume_step_i fe kinv rhs q s i).local_matrix a b
      = s.local_matrix a b + (if a = i then matrix_term fe kinv q a b else 0) := by
  unfold volume_step_i
  simp only []
  rw [foldl_observe (fun m j => FullMatrix.add m i j (matrix_term fe kinv q i j))
    (fun m => m a b) (fun j => if a = i ∧ b = j then matrix_term fe kinv q i j else 0)]
  · rw [sum_map_finRange]
    by_cases hai : a = i
    · subst hai
      simp [Finset.sum_ite_eq]
    · simp [hai]
  · intro m j
    by_cases h : a = i ∧ b = j
    · simp [FullMatrix.add, h]
    · simp [FullMatrix.add, h]

/-- The body of the loop over `i` adds its term to `local_rhs(i)`. -/
theorem volume_step_i_rhs {dim n nq : Nat} (fe : FEValues K dim n nq)
    (kinv : Fin nq → Tensor2 K dim) (rhs : Fin nq → K) (q : Fin nq) (s : LocalSystem K n)
    (i a : Fin n) :
    (volume_step_i fe kinv rhs q s i).local_rhs a
      = s.local_rhs a + (if a = i then fe.pressure_value a q * rhs q * fe.JxW q else 0) := by
  unfold volume_step_i
  by_cases hai : a = i
  · subst hai
    simp [Vector.add]
  · simp [Vector.add, hai]

/-- One quadrature point adds `matrix_term q a b` to every entry `(a,b)`. -/
theorem volume_step_q_matrix {dim n nq : Nat} (fe : FEValues K dim n nq)
    (kinv : Fin nq → Tensor2 K dim) (rhs : Fin nq → K) (s : LocalSystem K n) (q : Fin nq)
    (a b : Fin n) :
    (volume_step_q fe kinv rhs s q).local_matrix a b
      = s.local_matrix a b + matrix_term fe kinv q a b := by
  unfold volume_step_q
  rw [foldl_observe (volume_step_i fe kinv rhs q) (fun s => s.local_matrix a b)
    (fun i => if a = i then matrix_term fe kinv q a b else 0)
    (fun s i => volume_step_i_matrix fe kinv rhs q s i a b)]
  rw [sum_map_finRange]
  simp [Finset.sum_ite_eq]

/-- One quadrature point adds its load term to every entry of `local_rhs`. -/
theorem volume_step_q_rhs {dim n nq : Nat} (fe : FEValues K dim n nq)
    (kinv : Fin nq → Tensor2 K dim) (rhs : Fin nq → K) (s : LocalSystem K n) (q : Fin nq)
    (a : Fin n) :
    (volume_step_q fe kinv rhs s q).local_rhs a
      = s.local_rhs a + fe.pressure_value a q * rhs q * fe.JxW q := by
  unfold volume_step_q
  rw [foldl_observe (volume_step_i fe kinv rhs q) (fun s => s.local_rhs a)
    (fun i => if a = i then fe.pressure_value a q * rhs q * fe.JxW q else 0)
    (fun s i => volume_step_i_rhs fe kinv rhs q s i a)]
  rw [sum_map_finRange]
  simp [Finset.sum_ite_eq]

/-- The local matrix of a cell is the sum of `matrix_term` over the quadrature points. -/
theorem local_matrix_eq_sum {dim n nq : Nat} (hd : 1 < dim) (fe : FEValues K dim n nq)
    (a b : Fin n) :
    (assemble_cell_volume hd fe).local_matrix a b
      = ∑ q, matrix_term fe (KInverse.value_list fe.get_quadrature_points) q a b := by
  unfold assemble_cell_volume
  simp only []
  rw [foldl_observe _ (fun s => s.local_matrix a b)
    (fun q => matrix_term fe (KInverse.value_list fe.get_quadrature_points) q a b)
    (fun s q => volume_step_q_matrix fe _ _ s q a b)]
  rw [sum_map_finRange]
  simp

/-- The volume part of the local load vector is the sum of its terms over the quadrature
points. -/
theorem local_rhs_eq_sum {dim n nq : Nat} (hd : 1 < dim) (fe : FEValues K dim n nq)
    (a : Fin n) :
    (assemble_cell_volume hd fe).local_rhs a
      = ∑ q, fe.pressure_value a q * RightHandSide.value hd (fe.get_quadrature_points q)
          * fe.JxW q := by
  unfold assemble_cell_volume
  simp only []
  rw [foldl_observe _ (fun s => s.local_rhs a)
    (fun q => fe.pressure_value a q * RightHandSide.value hd (fe.get_quadrature_points q)
      * fe.JxW q)
    (fun s q => volume_step_q_rhs fe _ _ s q a)]
  rw [sum_map_finRange]
  simp [RightHandSide.value_list]

/-- The velocity term of `matrix_term`, as the code associates it, is `1/lambda` times the
double contraction of the inverse permeability with the two velocity values. -/
theorem velocity_term_eq {dim : Nat} (c : K) (u v : Tensor1 K dim) (t : Tensor2 K dim) :
    Tensor1.dot (Tensor1.contract (Tensor1.scale c u) t) v
      = c * ∑ a, ∑ b, u a * t a b * v b := by
  unfold Tensor1.dot Tensor1.contract Tensor1.scale
  simp only [Finset.mul_sum, Finset.sum_mul]
  rw [Finset.sum_comm]
  refine Finset.sum_congr rfl (fun a _ => ?_)
  refine Finset.sum_congr rfl (fun b _ => ?_)
  ring

/-- With the tensor of `KInverse::value_list`, the term added to entry `(i,j)` is the term
added to entry `(j,i)`. -/
theorem matrix_term_symm {dim n nq : Nat} (fe : FEValues K dim n nq) (q : Fin nq)
    (i j : Fin n) :
    matrix_term fe (KInverse.value_list fe.get_quadrature_points) q i j
      = matrix_term fe (KInverse.value_list fe.get_quadrature_points) q j i := by
  unfold matrix_term
  simp only [velocity_term_eq, KInverse_value_list_eq]
  have h : ∀ u v : Tensor1 K dim,
      (∑ a, ∑ b, u a * (if a = b then (1 : K) else 0) * v b) = ∑ a, u a * v a := by
    intro u v
    refine Finset.sum_congr rfl (fun a _ => ?_)
    simp [Finset.sum_ite_eq]
  rw [h, h]
  have h2 : (∑ a, fe.velocity_value i q a * fe.velocity_value j q a)
      = ∑ a, fe.velocity_value j q a * fe.velocity_value i q a :=
    Finset.sum_congr rfl (fun a _ => mul_comm _ _)
  rw [h2]
  ring

/-- The local matrix of the volume loop is symmetric. -/
theorem local_matrix_symmetric_aux {dim n nq : Nat} (hd : 1 < dim) (fe : FEValues K dim n nq)
    (i j : Fin n) :
    (assemble_cell_volume hd fe).local_matrix i j
      = (assemble_cell_volume hd fe).local_matrix j i := by
  rw [local_matrix_eq_sum, local_matrix_eq_sum]
  exact Finset.sum_congr rfl (fun q _ => matrix_term_symm fe q i j)

/-- A property every step of a left fold preserves holds at the end when it holds at the
start. -/
theorem foldl_invariant {S α : Type} (P : S → Prop) (f : S → α → S) (l : List α)
    (h : ∀ s, ∀ x ∈ l, P s → P (f s x)) (s : S) (hs : P s) : P (l.foldl f s) := by
  induction l generalizing s with
  | nil => simpa using hs
  | cons x xs ih =>
    rw [List.foldl_cons]
    exact ih (fun s y hy => h s y (List.mem_cons_of_mem _ hy)) _
      (h s x (List.mem_cons_self _ _) hs)

/-- The face loop leaves the local matrix as the volume loop made it. -/
theorem assemble_cell_local_matrix {dim n nq nfq : Nat} (hd : 1 < dim)
    (cell : CellData K dim n nq nfq) :
    (assemble_cell_local hd cell).local_matrix
      = (assemble_cell_volume hd cell.fe_values).local_matrix := rfl

/-- The scatter adds to entry `(I,J)` of the global matrix every local entry `(i,j)` whose
indices are numbered `I` and `J`. -/
theorem scatter_matrix {n : Nat} (l2g : Fin n → Nat) (loc : LocalSystem K n)
    (sys : LinearSystem K) (I J : Nat) :
    (scatter l2g loc sys).system_matrix I J
      = sys.system_matrix I J
        + ∑ i, ∑ j, if l2g i = I ∧ l2g j = J then loc.local_matrix i j else 0 := by
  unfold scatter
  have inner : ∀ (m : Nat → Nat → K) (i : Fin n),
      ((List.finRange n).foldl
        (fun m j => SparseMatrix.add m (l2g i) (l2g j) (loc.local_matrix i j)) m) I J
      = m I J + ∑ j, if l2g i = I ∧ l2g j = J then loc.local_matrix i j else 0 := by
    intro m i
    have key := foldl_observe
      (fun (m : Nat → Nat → K) (j : Fin n) =>
        SparseMatrix.add m (l2g i) (l2g j) (loc.local_matrix i j))
      (fun m => m I J)
      (fun j => if l2g i = I ∧ l2g j = J then loc.local_matrix i j else 0)
      (by
        intro m j
        by_cases h : I = l2g i ∧ J = l2g j
        · have h2 : l2g i = I ∧ l2g j = J := ⟨h.1.symm, h.2.symm⟩
          simp only [SparseMatrix.add]
          rw [if_pos h, if_pos h2]
        · have h2 : ¬ (l2g i = I ∧ l2g j = J) := fun h3 => h ⟨h3.1.symm, h3.2.symm⟩
          simp only [SparseMatrix.add]
          rw [if_neg h, if_neg h2, add_zero])
      (List.finRange n) m
    rw [sum_map_finRange] at key
    exact key
  have key := foldl_observe
    (fun (m : Nat → Nat → K) (i : Fin n) => (List.finRange n).foldl
      (fun m j => SparseMatrix.add m (l2g i) (l2g j) (loc.local_matrix i j)) m)
    (fun m => m I J)
    (fun i => ∑ j, if l2g i = I ∧ l2g j = J then loc.local_matrix i j else 0)
    (fun m i => inner m i) (List.finRange n) sys.system_matrix
  rw [sum_map_finRange] at key
  exact key

/-- The scatter of a symmetric local matrix into a symmetric global matrix gives a symmetric
global matrix. -/
theorem scatter_symmetric {n : Nat} (l2g : Fin n → Nat) (loc : LocalSystem K n)
    (sys : LinearSystem K) (hloc : ∀ i j, loc.local_matrix i j = loc.local_matrix j i)
    (hsys : ∀ I J, sys.system_matrix I J = sys.system_matrix J I) (I J : Nat) :
    (scatter l2g loc sys).system_matrix I J = (scatter l2g loc sys).system_matrix J I := by
  rw [scatter_matrix, scatter_matrix, hsys I J, Finset.sum_comm]
  congr 1
  refine Finset.sum_congr rfl (fun j _ => Finset.sum_congr rfl (fun i _ => ?_))
  rw [hloc i j]
  by_cases h : l2g i = I ∧ l2g j = J
  · rw [if_pos h, if_pos ⟨h.2, h.1⟩]
  · rw [if_neg h, if_neg (fun h3 => h ⟨h3.2, h3.1⟩)]

/-- The matrix after the loop over the cells is symmetric. -/
theorem assemble_cells_symmetric {dim n nq nfq : Nat} (hd : 1 < dim)
    (cells : List (CellData K dim n nq nfq)) (I J : Nat) :
    (assemble_cells hd cells).system_matrix I J
      = (assemble_cells hd cells).system_matrix J I := by
  unfold assemble_cells
  refine foldl_invariant (fun s : LinearSystem K => ∀ I J, s.system_matrix I J
    = s.system_matrix J I) (assemble_cell hd) cells ?_ _ (fun _ _ => rfl) I J
  intro s cell _ hs I J
  unfold assemble_cell
  refine scatter_symmetric _ _ _ ?_ hs I J
  intro i j
  rw [assemble_cell_local_matrix]
  exact local_matrix_symmetric_aux hd cell.fe_values i j

/-- One elimination keeps the matrix symmetric. -/
theorem eliminate_dof_symmetric (dof : Nat) (v : K) (sys : LinearSystem K)
    (hsys : ∀ I J, sys.system_matrix I J = sys.system_matrix J I) (I J : Nat) :
    (eliminate_dof dof v sys).system_matrix I J
      = (eliminate_dof dof v sys).system_matrix J I := by
  unfold eliminate_dof
  simp only []
  by_cases hI : I = dof <;> by_cases hJ : J = dof <;> simp [hI, hJ, hsys I J]

/-- The eliminations of a whole map keep the matrix symmetric. -/
theorem apply_boundary_values_symmetric (bv : StdMap K) (sys : LinearSystem K)
    (hsys : ∀ I J, sys.system_matrix I J = sys.system_matrix J I) (I J : Nat) :
    (apply_boundary_values bv sys).system_matrix I J
      = (apply_boundary_values bv sys).system_matrix J I := by
  unfold apply_boundary_values
  exact foldl_invariant (fun s : LinearSystem K => ∀ I J, s.system_matrix I J
    = s.system_matrix J I) _ bv (fun s e _ hs => eliminate_dof_symmetric e.1 e.2 s hs) _ hsys I J

/-- A local index whose shape function has no velocity part gives a zero local matrix entry with
every other such index. -/
theorem local_matrix_pressure_zero {dim n nq : Nat} (hd : 1 < dim) (fe : FEValues K dim n nq)
    (i j : Fin n)
    (hi : ∀ q, fe.velocity_value i q = 0 ∧ fe.velocity_divergence i q = 0)
    (hj : ∀ q, fe.velocity_value j q = 0 ∧ fe.velocity_divergence j q = 0) :
    (assemble_cell_volume hd fe).local_matrix i j = 0 := by
  rw [local_matrix_eq_sum]
  refine Finset.sum_eq_zero (fun q _ => ?_)
  unfold matrix_term
  simp only [velocity_term_eq, (hi q).1, (hi q).2, (hj q).2]
  simp

/-- One face adds its face terms to `local_rhs(i)` when it is at the boundary with boundary id
`1`, and nothing otherwise. -/
theorem face_step_rhs {dim n nq nfq : Nat} (cell : CellData K dim n nq nfq)
    (r : Fin n → K) (f : Fin (2 * dim)) (i : Fin n) :
    face_step cell r f i
      = r i
        + if cell.face_at_boundary f = true ∧ cell.face_boundary_id f = 1 then
            ∑ q, face_term (cell.fe_face_values f)
              (PressureBoundaryValues.value_list (cell.fe_face_values f).get_quadrature_points)
              q i
          else 0 := by
  unfold face_step
  by_cases hc : cell.face_at_boundary f = true ∧ cell.face_boundary_id f = 1
  · have hb : (cell.face_at_boundary f && (cell.face_boundary_id f == 1)) = true := by
      simp [hc.1, hc.2]
    rw [if_pos hb, if_pos hc]
    have inner : ∀ (r : Fin n → K) (q : Fin nfq),
        ((List.finRange n).foldl (fun r i => Vector.add r i
          (face_term (cell.fe_face_values f) (PressureBoundaryValues.value_list
            (cell.fe_face_values f).get_quadrature_points) q i)) r) i
        = r i + face_term (cell.fe_face_values f) (PressureBoundaryValues.value_list
            (cell.fe_face_values f).get_quadrature_points) q i := by
      intro r q
      have k2 := foldl_observe
        (fun (r : Fin n → K) (i : Fin n) => Vector.add r i
          (face_term (cell.fe_face_values f) (PressureBoundaryValues.value_list
            (cell.fe_face_values f).get_quadrature_points) q i))
        (fun r => r i)
        (fun i' => if i = i' then face_term (cell.fe_face_values f)
          (PressureBoundaryValues.value_list
            (cell.fe_face_values f).get_quadrature_points) q i else 0)
        (by
          intro r i'
          by_cases h : i = i'
          · subst h
            simp [Vector.add]
          · simp [Vector.add, h])
        (List.finRange n) r
      rw [sum_map_finRange] at k2
      simpa [Finset.sum_ite_eq] using k2
    have k3 := foldl_observe
      (fun (r : Fin n → K) (q : Fin nfq) => (List.finRange n).foldl (fun r i => Vector.add r i
          (face_term (cell.fe_face_values f) (PressureBoundaryValues.value_list
            (cell.fe_face_values f).get_quadrature_points) q i)) r)
      (fun r => r i)
      (fun q => face_term (cell.fe_face_values f) (PressureBoundaryValues.value_list
            (cell.fe_face_values f).get_quadrature_points) q i)
      (fun r q => inner r q) (List.finRange nfq) r
    rw [sum_map_finRange] at k3
    exact k3
  · have hb : ¬ ((cell.face_at_boundary f && (cell.face_boundary_id f == 1)) = true) := by
      intro hb
      simp only [Bool.and_eq_true, beq_iff_eq] at hb
      exact hc hb
    rw [if_neg hb, if_neg hc, add_zero]

/-- The face loop adds to `local_rhs(i)` the face terms of the faces that are at the boundary
with boundary id `1`. -/
theorem assemble_cell_faces_rhs {dim n nq nfq : Nat} (cell : CellData K dim n nq nfq)
    (s : LocalSystem K n) (i : Fin n) :
    (assemble_cell_faces cell s).local_rhs i
      = s.local_rhs i
        + ∑ f, if cell.face_at_boundary f = true ∧ cell.face_boundary_id f = 1 then
            ∑ q, face_term (cell.fe_face_values f)
              (PressureBoundaryValues.value_list (cell.fe_face_values f).get_quadrature_points)
              q i
          else 0 := by
  unfold assemble_cell_faces
  have key := foldl_observe (face_step cell) (fun r => r i)
    (fun f => if cell.face_at_boundary f = true ∧ cell.face_boundary_id f = 1 then
        ∑ q, face_term (cell.fe_face_values f)
          (PressureBoundaryValues.value_list (cell.fe_face_values f).get_quadrature_points) q i
      else 0)
    (fun r f => face_step_rhs cell r f i)
    (List.finRange (2 * dim)) s.local_rhs
  rw [sum_map_finRange] at key
  exact key

/-- The mask of Pass A selects the components below `dim` and no other. -/
theorem componentVector_getD (dim c : Nat) :
    (componentVector dim).getD c false = decide (c < dim) := by
  unfold componentVector
  rw [List.getD_eq_getElem?_getD, List.getElem?_set]
  by_cases h1 : dim = c
  · subst h1
    simp
  · rw [if_neg h1]
    by_cases h2 : c < dim + 1
    · rw [List.getElem?_replicate_of_lt h2]
      have : c < dim := by omega
      simp [this]
    · rw [List.getElem?_eq_none (by simpa using h2)]
      have : ¬ c < dim := by omega
      simp [this]

/-- The mask of Pass B selects no component: the write at `dim+1` changes none of its `dim+1`
entries. -/
theorem componentVector2_getD (dim c : Nat) :
    (componentVector2 dim).getD c false = false := by
  unfold componentVector2
  rw [List.getD_eq_getElem?_getD, List.getElem?_set]
  by_cases h1 : dim + 1 = c
  · subst h1
    simp
  · rw [if_neg h1]
    by_cases h2 : c < dim + 1
    · rw [List.getElem?_replicate_of_lt h2]
      rfl
    · rw [List.getElem?_eq_none (by simpa using h2)]
      rfl

/-- The dof selection of Pass A: the dofs of a velocity component on a face at the boundary
with boundary id `0`. -/
theorem selected_dofs_iff (dim : Nat) (dh : DoFHandler) (d : Nat) :
    selected_dofs dim dh d = true
      ↔ dh.component d < dim ∧ ∃ f ∈ dh.boundary_faces, f.1 = 0 ∧ d ∈ f.2 := by
  unfold selected_dofs extract_boundary_dofs boundary_ids
  rw [Bool.and_eq_true, componentVector_getD, List.any_eq_true]
  simp

/-- The dof selection of Pass B flags no dof, the mask selecting no component. -/
theorem selected_dofs2_eq_false (dim : Nat) (dh : DoFHandler) (d : Nat) :
    selected_dofs2 dim dh d = false := by
  unfold selected_dofs2 extract_boundary_dofs
  rw [componentVector2_getD]
  rfl

/-- The tagging of one face: centre and boundary flag stay, the id becomes `1` at the top, `2`
at the bottom, and stays what it was elsewhere. -/
theorem tag_face_spec [DecidableEq K] {dim : Nat} (hd : 0 < dim) (c : TriaFace K dim) :
    (tag_face hd c).center = c.center ∧ (tag_face hd c).at_boundary = c.at_boundary
    ∧ (c.center ⟨dim - 1, by omega⟩ = data.top → (tag_face hd c).boundary_id = 1)
    ∧ (c.center ⟨dim - 1, by omega⟩ ≠ data.top → c.center ⟨dim - 1, by omega⟩ = data.bottom →
        (tag_face hd c).boundary_id = 2)
    ∧ (c.center ⟨dim - 1, by omega⟩ ≠ data.top → c.center ⟨dim - 1, by omega⟩ ≠ data.bottom →
        (tag_face hd c).boundary_id = c.boundary_id) := by
  unfold tag_face
  by_cases h1 : c.center ⟨dim - 1, by omega⟩ = data.top
  · rw [if_pos h1]
    exact ⟨rfl, rfl, fun _ => rfl, fun h => absurd h1 h, fun h => absurd h1 h⟩
  · rw [if_neg h1]
    by_cases h2 : c.center ⟨dim - 1, by omega⟩ = data.bottom
    · rw [if_pos h2]
      exact ⟨rfl, rfl, fun h => absurd h h1, fun _ _ => rfl, fun _ h => absurd h2 h⟩
    · rw [if_neg h2]
      exact ⟨rfl, rfl, fun h => absurd h h1, fun _ h => absurd h h2, fun _ _ => rfl⟩

/-- In the mesh of `subdivided_hyper_rectangle`, a face at the boundary has boundary id `0` and
any other face `internal_face_boundary_id`. -/
theorem subdivided_hyper_rectangle_ids (nx : Nat) (bl tr : Point K 2)
    (cell : Fin 4 → TriaFace K 2) (hc : cell ∈ subdivided_hyper_rectangle nx bl tr)
    (f : Fin 4) :
    (cell f).boundary_id = if (cell f).at_boundary then 0 else internal_face_boundary_id := by
  unfold subdivided_hyper_rectangle at hc
  rw [List.mem_map] at hc
  obtain ⟨k, _, rfl⟩ := hc
  fin_cases f <;> simp

/-- The velocity part of the analytic reference in two dimensions. -/
theorem exact_velocity_eq (x y : K) :
    exact_velocity x y = ![0, data.rho_f * (1 - y * y)] := by
  funext k
  fin_cases k
  · simp [exact_velocity, ExactSolution.vector_value, Function.update]
  · simp [exact_velocity, ExactSolution.vector_value, Function.update]

/-- The pressure part of the analytic reference in two dimensions. -/
theorem exact_pressure_eq (x y : K) :
    exact_pressure x y = -data.rho_f * (y - 1 / 3 * y * y * y) := by
  simp [exact_pressure, ExactSolution.vector_value, Function.update, Fin.last]

/-- The scalar product of two vectors of the plane. -/
theorem dot_two (a b : Tensor1 K 2) : Tensor1.dot a b = a 0 * b 0 + a 1 * b 1 := by
  unfold Tensor1.dot
  rw [Fin.sum_univ_two]

/-- The write of Pass B leaves the vector as it was filled: every entry is `false`. -/
theorem componentVector2_eq_replicate (dim : Nat) :
    componentVector2 dim = List.replicate (dim + 1) false := by
  unfold componentVector2
  apply List.ext_getElem?
  intro c
  rw [List.getElem?_set]
  by_cases h1 : dim + 1 = c
  · subst h1
    simp
  · rw [if_neg h1]

end loop_lemmas

/-! ## The claims -/

section claims

variable {K : Type} [Field K]

/-- C1: for every cell and every pair of local indices `(i,j)`, the local matrix built by
`assemble_system` is the sum over the quadrature points of
`[(1/lambda) * (phi_u_i . Kinv . phi_u_j) - div phi_u_i * phi_p_j - phi_p_i * div phi_u_j] * JxW`,
and the volume part of the local load vector is the sum of `phi_p_i * source(x_q) * JxW` with
`source(x) = 2 * x[1] * rho_f`. -/
theorem assemble_cell_volume_eq_bilinear_form {dim n nq : Nat} (hd : 1 < dim)
    (fe : FEValues K dim n nq) :
    (∀ i j : Fin n, (assemble_cell_volume hd fe).local_matrix i j
      = ∑ q, ((1 / data.lambda)
            * (∑ a, ∑ b, fe.velocity_value i q a
                * KInverse.value_list fe.get_quadrature_points q a b
                * fe.velocity_value j q b)
          - fe.velocity_divergence i q * fe.pressure_value j q
          - fe.pressure_value i q * fe.velocity_divergence j q) * fe.JxW q)
    ∧ (∀ i : Fin n, (assemble_cell_volume hd fe).local_rhs i
      = ∑ q, fe.pressure_value i q * (2 * fe.get_quadrature_points q ⟨1, hd⟩ * data.rho_f)
          * fe.JxW q) := by
  constructor
  · intro i j
    rw [local_matrix_eq_sum]
    refine Finset.sum_congr rfl (fun q _ => ?_)
    unfold matrix_term
    simp only [velocity_term_eq]
  · intro i
    rw [local_rhs_eq_sum]
    rfl

/-- The statement of C1 on the sample cell: entry `(0,1)` of the local matrix and entry `1` of
the local load vector. -/
theorem assemble_cell_volume_eq_bilinear_form_witness :
    (1 < 2)
    ∧ (assemble_cell_volume (by decide) sample_fe_values).local_matrix 0 1
      = ∑ q, ((1 / data.lambda)
            * (∑ a, ∑ b, sample_fe_values.velocity_value 0 q a
                * KInverse.value_list sample_fe_values.get_quadrature_points q a b
                * sample_fe_values.velocity_value 1 q b)
          - sample_fe_values.velocity_divergence 0 q * sample_fe_values.pressure_value 1 q
          - sample_fe_values.pressure_value 0 q * sample_fe_values.velocity_divergence 1 q)
          * sample_fe_values.JxW q
    ∧ (assemble_cell_volume (by decide) sample_fe_values).local_rhs 1
      = ∑ q, sample_fe_values.pressure_value 1 q
          * (2 * sample_fe_values.get_quadrature_points q ⟨1, by decide⟩ * data.rho_f)
          * sample_fe_values.JxW q :=
  ⟨by decide,
    (assemble_cell_volume_eq_bilinear_form (by decide) sample_fe_values).1 0 1,
    (assemble_cell_volume_eq_bilinear_form (by decide) sample_fe_values).2 1⟩

/-- C2: for every cell, whatever the shape function values, divergences and weights, the local
matrix computed by `assemble_system` with the tensor of `KInverse::value_list` is symmetric. -/
theorem local_matrix_symmetric {dim n nq : Nat} (hd : 1 < dim) (fe : FEValues K dim n nq)
    (i j : Fin n) :
    (assemble_cell_volume hd fe).local_matrix i j
      = (assemble_cell_volume hd fe).local_matrix j i := by
  exact local_matrix_symmetric_aux hd fe i j

/-- The statement of C2 on the sample cell, at the entries `(0,1)` and `(1,0)`. -/
theorem local_matrix_symmetric_witness :
    (1 < 2)
    ∧ (assemble_cell_volume (by decide) sample_fe_values).local_matrix 0 1
      = (assemble_cell_volume (by decide) sample_fe_values).local_matrix 1 0 :=
  ⟨by decide, local_matrix_symmetric (by decide) sample_fe_values 0 1⟩

/-- C3: for every mesh and every local-to-global dof map, the global matrix of
`assemble_system` is symmetric after the scatter-add of all cell-local matrices, and
`assemble_system` returns a system whose matrix is symmetric after the eliminations of Pass A
and then Pass B. -/
theorem system_matrix_symmetric {dim n nq nfq : Nat} (hd : 1 < dim)
    (cells : List (CellData K dim n nq nfq)) (dof_handler : DoFHandler) :
    (∀ I J, (assemble_cells hd cells).system_matrix I J
      = (assemble_cells hd cells).system_matrix J I)
    ∧ ∃ sys, assemble_system hd cells dof_handler = Except.ok sys
      ∧ ∀ I J, sys.system_matrix I J = sys.system_matrix J I := by
  refine ⟨assemble_cells_symmetric hd cells, _, rfl, ?_⟩
  exact apply_boundary_values_symmetric _ _
    (apply_boundary_values_symmetric _ _ (assemble_cells_symmetric hd cells))

/-- The statement of C3 on the mesh of the one sample cell, at the entries `(0,1)` and
`(1,0)`. -/
theorem system_matrix_symmetric_witness :
    (1 < 2)
    ∧ (assemble_cells (by decide) [sample_cell]).system_matrix 0 1
      = (assemble_cells (by decide) [sample_cell]).system_matrix 1 0
    ∧ ∃ sys, assemble_system (by decide) [sample_cell] sample_dof_handler = Except.ok sys
      ∧ sys.system_matrix 0 1 = sys.system_matrix 1 0 :=
  ⟨by decide, (system_matrix_symmetric (by decide) [sample_cell] sample_dof_handler).1 0 1,
    (system_matrix_symmetric (by decide) [sample_cell] sample_dof_handler).2.elim
      (fun sys h => ⟨sys, h.1, h.2 0 1⟩)⟩

/-- C4: let `is_pressure` tell the pressure functions among the local shape functions, let every
pressure function have velocity value and divergence `0` on every cell, and let every velocity
function be numbered below `n_u`, the first pressure id. Then every entry `(I,J)` with
`n_u ≤ I` and `n_u ≤ J` of the global matrix after the loop over the cells is `0`, and so is
every local entry `(i,j)` of two pressure functions. (That a velocity function has pressure
value `0` is not needed.) -/
theorem pressure_block_zero {dim n nq nfq : Nat} (hd : 1 < dim)
    (cells : List (CellData K dim n nq nfq)) (is_pressure : Fin n → Bool) (n_u : Nat)
    (hfe : ∀ cell ∈ cells, ∀ i q, is_pressure i = true →
      cell.fe_values.velocity_value i q = 0 ∧ cell.fe_values.velocity_divergence i q = 0)
    (hnum : ∀ cell ∈ cells, ∀ i, is_pressure i = false → cell.local_dof_indices i < n_u) :
    (∀ I J, n_u ≤ I → n_u ≤ J → (assemble_cells hd cells).system_matrix I J = 0)
    ∧ (∀ cell ∈ cells, ∀ i j, is_pressure i = true → is_pressure j = true →
      (assemble_cell_local hd cell).local_matrix i j = 0) := by
  have hloc : ∀ cell ∈ cells, ∀ i j, is_pressure i = true → is_pressure j = true →
      (assemble_cell_local hd cell).local_matrix i j = 0 := by
    intro cell hc i j hi hj
    rw [assemble_cell_local_matrix]
    exact local_matrix_pressure_zero hd cell.fe_values i j (fun q => hfe cell hc i q hi)
      (fun q => hfe cell hc j q hj)
  refine ⟨?_, hloc⟩
  unfold assemble_cells
  refine foldl_invariant (fun s : LinearSystem K => ∀ I J, n_u ≤ I → n_u ≤ J →
    s.system_matrix I J = 0) (assemble_cell hd) cells ?_ _ (fun _ _ _ _ => rfl)
  intro s cell hc hs I J hI hJ
  unfold assemble_cell
  rw [scatter_matrix, hs I J hI hJ, zero_add]
  refine Finset.sum_eq_zero (fun i _ => Finset.sum_eq_zero (fun j _ => ?_))
  by_cases h : cell.local_dof_indices i = I ∧ cell.local_dof_indices j = J
  · rw [if_pos h]
    have hi : is_pressure i = true := by
      by_contra hne
      have := hnum cell hc i (by simpa using hne)
      omega
    have hj : is_pressure j = true := by
      by_contra hne
      have := hnum cell hc j (by simpa using hne)
      omega
    exact hloc cell hc i j hi hj
  · rw [if_neg h]

/-- The statement of C4 on the mesh of the one sample cell, whose second shape function is the
pressure function and has the global number `1 = n_u`. -/
theorem pressure_block_zero_witness :
    (1 < 2)
    ∧ (∀ cell ∈ [sample_cell], ∀ (i : Fin 2) (q : Fin 2), (i == 1) = true →
      cell.fe_values.velocity_value i q = 0 ∧ cell.fe_values.velocity_divergence i q = 0)
    ∧ (∀ cell ∈ [sample_cell], ∀ i : Fin 2, (i == 1) = false → cell.local_dof_indices i < 1)
    ∧ (assemble_cells (by decide) [sample_cell]).system_matrix 1 1 = 0
    ∧ (assemble_cell_local (by decide) sample_cell).local_matrix 1 1 = 0 :=
  have hfe : ∀ cell ∈ [sample_cell], ∀ (i : Fin 2) (q : Fin 2), (i == 1) = true →
      cell.fe_values.velocity_value i q = 0 ∧ cell.fe_values.velocity_divergence i q = 0 := by
    intro cell hc i q hi
    rw [List.mem_singleton] at hc
    subst hc
    have hi1 : i = 1 := by simpa using hi
    subst hi1
    constructor
    · funext a
      fin_cases a <;> simp [sample_cell, sample_fe_values]
    · simp [sample_cell, sample_fe_values]
  have hnum : ∀ cell ∈ [sample_cell], ∀ i : Fin 2, (i == 1) = false →
      cell.local_dof_indices i < 1 := by
    intro cell hc i hi
    rw [List.mem_singleton] at hc
    subst hc
    fin_cases i
    · simp [sample_cell]
    · simp at hi
  ⟨by decide, hfe, hnum,
    (pressure_block_zero (by decide) [sample_cell] (fun i => i == 1) 1 hfe hnum).1 1 1
      (le_refl 1) (le_refl 1),
    (pressure_block_zero (by decide) [sample_cell] (fun i => i == 1) 1 hfe hnum).2 sample_cell
      (List.mem_singleton.2 rfl) 1 1 rfl rfl⟩

/-- C5: for every cell and every local index `i`, the face loop of `assemble_system` changes
`local_rhs(i)` by minus the sum, over exactly the faces of the cell that are at the boundary
with boundary id `1` and over their face quadrature points `q`, of
`(phi_u_i(q) . n(q)) * g * JxW(q)` with `g = -2/3 * rho_f`; the faces left out of the sum, which
are interior or carry another boundary id, add nothing. -/
theorem top_face_contribution {dim n nq nfq : Nat} (cell : CellData K dim n nq nfq)
    (s : LocalSystem K n) (i : Fin n) :
    (assemble_cell_faces cell s).local_rhs i - s.local_rhs i
      = -∑ f in Finset.univ.filter
            (fun f => cell.face_at_boundary f = true ∧ cell.face_boundary_id f = 1),
          ∑ q, Tensor1.dot ((cell.fe_face_values f).velocity_value i q)
              ((cell.fe_face_values f).normal_vector q)
            * (-2 / 3 * data.rho_f) * (cell.fe_face_values f).JxW q := by
  rw [assemble_cell_faces_rhs, add_sub_cancel_left, Finset.sum_filter, ← Finset.sum_neg_distrib]
  refine Finset.sum_congr rfl (fun f _ => ?_)
  by_cases hc : cell.face_at_boundary f = true ∧ cell.face_boundary_id f = 1
  · rw [if_pos hc, if_pos hc, ← Finset.sum_neg_distrib]
    rfl
  · rw [if_neg hc, if_neg hc, neg_zero]

/-- C6, as the claim states it, fails: in the sample dof handler dof `0` is a velocity dof on a
face at the boundary with boundary id `2` and is below `n_dofs`, and Pass B gives it no
value. -/
theorem passB_skips_bottom_velocity_dof :
    sample_dof_handler.component 0 < 2
    ∧ (∃ f ∈ sample_dof_handler.boundary_faces, f.1 = 2 ∧ 0 ∈ f.2)
    ∧ 0 < sample_dof_handler.n_dofs
    ∧ StdMap.find (boundary_values_flux2 sample_dof_handler.n_dofs
        (selected_dofs2 2 sample_dof_handler) : StdMap ℚ) 0 = none := by
  refine ⟨by decide, by decide, by decide, ?_⟩
  unfold boundary_values_flux2
  rw [find_fill, selected_dofs2_eq_false]
  simp

/-- C6, amended: in Pass B the dofs that receive a prescribed value are exactly the dofs below
`n_dofs2` that the dof selection flags, each prescribed `-rho_f = -1`; the selection flags no
dof of a velocity component, the mask being built with every velocity component deselected,
and no dof off the faces at the boundary with boundary id `2`. -/
theorem passB_prescriptions (dim n_dofs2 : Nat) (sel2 : Nat → Bool) (dh : DoFHandler) :
    (∀ d, StdMap.find (boundary_values_flux2 n_dofs2 sel2 : StdMap K) d
      = if d < n_dofs2 ∧ sel2 d = true then some (-data.rho_f) else none)
    ∧ (-data.rho_f : K) = -1
    ∧ (∀ d, dh.component d < dim → selected_dofs2 dim dh d = false)
    ∧ (∀ d, (¬ ∃ f ∈ dh.boundary_faces, f.1 = 2 ∧ d ∈ f.2) → selected_dofs2 dim dh d = false) := by
  refine ⟨?_, rfl, ?_, ?_⟩
  · intro d
    unfold boundary_values_flux2
    rw [find_fill]
  · intro d hc
    unfold selected_dofs2 extract_boundary_dofs
    have hm : (componentVector2 dim).getD (dh.component d) false = false := by
      unfold componentVector2
      rw [List.getD_eq_getElem?_getD, List.getElem?_set, if_neg (by omega),
        List.getElem?_replicate_of_lt (by omega)]
      rfl
    rw [hm]
    rfl
  · intro d hf
    unfold selected_dofs2 extract_boundary_dofs boundary_ids2
    rw [Bool.and_eq_false_iff]
    right
    rw [Bool.eq_false_iff]
    intro hany
    rw [List.any_eq_true] at hany
    obtain ⟨f, hfm, hfc⟩ := hany
    refine hf ⟨f, hfm, ?_⟩
    simpa using hfc

/-- The statement of the amended C6 on the sample dof handler: dof `0`, flagged, is prescribed
`-rho_f`; dof `0` is a velocity dof and Pass B does not select it; dof `5` lies on no face and
Pass B does not select it. -/
theorem passB_prescriptions_witness :
    StdMap.find (boundary_values_flux2 2 (fun d => d == 0) : StdMap ℚ) 0
      = (if 0 < 2 ∧ ((fun d : Nat => d == 0) 0) = true then some (-data.rho_f) else none)
    ∧ (-data.rho_f : ℚ) = -1
    ∧ sample_dof_handler.component 0 < 2
    ∧ selected_dofs2 2 sample_dof_handler 0 = false
    ∧ (¬ ∃ f ∈ sample_dof_handler.boundary_faces, f.1 = 2 ∧ 5 ∈ f.2)
    ∧ selected_dofs2 2 sample_dof_handler 5 = false :=
  ⟨(passB_prescriptions 2 2 (fun d => d == 0) sample_dof_handler).1 0,
    (passB_prescriptions (K := ℚ) 2 2 (fun d => d == 0) sample_dof_handler).2.1,
    by decide,
    (passB_prescriptions (K := ℚ) 2 2 (fun d => d == 0) sample_dof_handler).2.2.1 0 (by decide),
    by decide,
    (passB_prescriptions (K := ℚ) 2 2 (fun d => d == 0) sample_dof_handler).2.2.2 5 (by decide)⟩

/-- C7, as the claim states it, fails: in the sample dof handler dof `0` is a velocity dof and
Pass A prescribes it `0`, and dof `1` is a pressure dof on a face at the boundary with boundary
id `0` (and on one with id `3`) and Pass A gives it no value. -/
theorem passA_prescribes_velocity_dof :
    sample_dof_handler.component 0 < 2
    ∧ StdMap.find (boundary_values_flux sample_dof_handler.n_dofs
        (selected_dofs 2 sample_dof_handler) : StdMap ℚ) 0 = some 0
    ∧ sample_dof_handler.component 1 = 2
    ∧ 1 < sample_dof_handler.n_dofs
    ∧ (∃ f ∈ sample_dof_handler.boundary_faces, f.1 = 0 ∧ 1 ∈ f.2)
    ∧ (∃ f ∈ sample_dof_handler.boundary_faces, f.1 = 3 ∧ 1 ∈ f.2)
    ∧ StdMap.find (boundary_values_flux sample_dof_handler.n_dofs
        (selected_dofs 2 sample_dof_handler) : StdMap ℚ) 1 = none := by
  refine ⟨by decide, ?_, by decide, by decide, by decide, by decide, ?_⟩
  · unfold boundary_values_flux
    rw [find_fill, if_pos]
    exact ⟨by decide, (selected_dofs_iff 2 sample_dof_handler 0).2 ⟨by decide, by decide⟩⟩
  · unfold boundary_values_flux
    rw [find_fill, if_neg]
    rintro ⟨_, h⟩
    have := ((selected_dofs_iff 2 sample_dof_handler 1).1 h).1
    revert this
    decide

/-- C7, amended: in Pass A the dofs that receive a prescribed value are exactly the dofs (below
`n_dofs`) of a velocity component that lie on a face at the boundary with boundary id `0`, the
id the side walls keep, and each of them is prescribed `0`. -/
theorem passA_prescriptions (dim : Nat) (dh : DoFHandler) (d : Nat) :
    StdMap.find (boundary_values_flux dh.n_dofs (selected_dofs dim dh) : StdMap K) d
      = if d < dh.n_dofs ∧ dh.component d < dim
          ∧ ∃ f ∈ dh.boundary_faces, f.1 = 0 ∧ d ∈ f.2 then some 0 else none := by
  unfold boundary_values_flux
  rw [find_fill]
  by_cases h : selected_dofs dim dh d = true
  · have h2 := (selected_dofs_iff dim dh d).1 h
    by_cases hn : d < dh.n_dofs
    · rw [if_pos ⟨hn, h⟩, if_pos ⟨hn, h2⟩]
    · rw [if_neg (fun h' => hn h'.1), if_neg (fun h' => hn h'.1)]
  · have h2 := fun h' => h ((selected_dofs_iff dim dh d).2 h')
    rw [if_neg (fun h' => h h'.2), if_neg (fun h' => h2 h'.2)]

/-- C9, as the claim states it, fails: after the tagging loop the left face of the first cell of
the rectangle mesh, a side wall face at the boundary with centre at height `1/2`, carries the
boundary id `0`, not `3`. -/
theorem side_wall_face_has_id_zero :
    ((tag_boundary_faces (by decide : 0 < 2) (coarse_mesh : List (Fin 4 → TriaFace ℚ 2))).map
      (fun cell => ((cell 0).at_boundary, (cell 0).center 1, (cell 0).boundary_id))).head?
      = some (true, 1 / 2, 0)
    ∧ (1 / 2 : ℚ) ≠ data.top ∧ (1 / 2 : ℚ) ≠ data.bottom ∧ (0 : Nat) ≠ 3 := by
  refine ⟨?_, by norm_num [data.top], by norm_num [data.bottom], by decide⟩
  simp [tag_boundary_faces, coarse_mesh, subdivided_hyper_rectangle, tag_face, List.range_succ,
    data.top, data.bottom]

/-- C9, amended: after the tagging loop of `make_grid_and_dofs`, every face of every cell has
its centre and boundary flag unchanged; a face whose centre has last coordinate `top` carries
boundary id `1`, one whose centre has last coordinate `bottom` (and not `top`) carries boundary
id `2`, and every remaining face carries the id it had before. On the rectangle mesh every
remaining face at the boundary (the side walls) so carries boundary id `0`. -/
theorem tag_boundary_faces_ids [DecidableEq K] {dim : Nat} (hd : 0 < dim)
    (cells : List (Fin (2 * dim) → TriaFace K dim)) :
    (∀ (k : Nat) (cell : Fin (2 * dim) → TriaFace K dim), cells[k]? = some cell →
      ∃ tagged, (tag_boundary_faces hd cells)[k]? = some tagged ∧ ∀ f,
        (tagged f).center = (cell f).center ∧ (tagged f).at_boundary = (cell f).at_boundary
        ∧ ((cell f).center ⟨dim - 1, by omega⟩ = data.top → (tagged f).boundary_id = 1)
        ∧ ((cell f).center ⟨dim - 1, by omega⟩ ≠ data.top →
            (cell f).center ⟨dim - 1, by omega⟩ = data.bottom → (tagged f).boundary_id = 2)
        ∧ ((cell f).center ⟨dim - 1, by omega⟩ ≠ data.top →
            (cell f).center ⟨dim - 1, by omega⟩ ≠ data.bottom →
            (tagged f).boundary_id = (cell f).boundary_id))
    ∧ (∀ tagged ∈ tag_boundary_faces (by decide : 0 < 2)
          (coarse_mesh : List (Fin 4 → TriaFace ℚ 2)), ∀ f : Fin 4,
        (tagged f).at_boundary = true → (tagged f).center 1 ≠ data.top →
        (tagged f).center 1 ≠ data.bottom → (tagged f).boundary_id = 0) := by
  constructor
  · intro k cell hk
    refine ⟨fun f => tag_face hd (cell f), ?_, fun f => tag_face_spec hd (cell f)⟩
    unfold tag_boundary_faces
    rw [List.getElem?_map, hk]
    rfl
  · intro tagged ht f hb h1 h2
    unfold tag_boundary_faces at ht
    rw [List.mem_map] at ht
    obtain ⟨cell, hcell, rfl⟩ := ht
    have hs := tag_face_spec (K := ℚ) (by decide : 0 < 2) (cell f)
    have hc : (cell f).center 1 = (tag_face (K := ℚ) (by decide : 0 < 2) (cell f)).center 1 := by
      rw [hs.1]
    simp only [] at hb h1 h2
    rw [← hc] at h1 h2
    rw [hs.2.1] at hb
    rw [hs.2.2.2.2 h1 h2, subdivided_hyper_rectangle_ids _ _ _ cell hcell f, hb]
    rfl

/-- The statement of the amended C9 on the mesh of the one sample cell: its top face gets the
id `1`, its bottom face the id `2`, and its left face keeps the id `0`. -/
theorem tag_boundary_faces_ids_witness :
    (0 < 2)
    ∧ [sample_tria_cell][0]? = some sample_tria_cell
    ∧ (sample_tria_cell 3).center ⟨2 - 1, by omega⟩ = data.top
    ∧ (sample_tria_cell 2).center ⟨2 - 1, by omega⟩ ≠ data.top
    ∧ (sample_tria_cell 2).center ⟨2 - 1, by omega⟩ = data.bottom
    ∧ (sample_tria_cell 0).center ⟨2 - 1, by omega⟩ ≠ data.top
    ∧ (sample_tria_cell 0).center ⟨2 - 1, by omega⟩ ≠ data.bottom
    ∧ ∃ tagged, (tag_boundary_faces (by decide : 0 < 2) [sample_tria_cell])[0]? = some tagged
      ∧ (tagged 3).boundary_id = 1 ∧ (tagged 2).boundary_id = 2
      ∧ (tagged 0).boundary_id = (sample_tria_cell 0).boundary_id :=
  have h3 : (sample_tria_cell 3).center ⟨2 - 1, by omega⟩ = data.top := by
    simp [sample_tria_cell, data.top]
  have h2 : (sample_tria_cell 2).center ⟨2 - 1, by omega⟩ ≠ data.top := by
    simp [sample_tria_cell, data.top]
  have h2' : (sample_tria_cell 2).center ⟨2 - 1, by omega⟩ = data.bottom := by
    simp [sample_tria_cell, data.bottom]
  have h0 : (sample_tria_cell 0).center ⟨2 - 1, by omega⟩ ≠ data.top := by
    simp [sample_tria_cell, data.top]
  have h0' : (sample_tria_cell 0).center ⟨2 - 1, by omega⟩ ≠ data.bottom := by
    simp [sample_tria_cell, data.bottom]
  ⟨by decide, rfl, h3, h2, h2', h0, h0',
    ((tag_boundary_faces_ids (by decide : 0 < 2) [sample_tria_cell]).1 0 sample_tria_cell
      rfl).elim
      (fun tagged h => ⟨tagged, h.1, (h.2 3).2.2.1 h3, (h.2 2).2.2.2.1 h2 h2',
        (h.2 0).2.2.2.2 h0 h0'⟩)⟩

/-- C10: at every point `(x,y)` of the real plane, the reference of
`ExactSolution::vector_value` in two dimensions is `u = (0, rho_f*(1 - y^2))`,
`p = -rho_f*(y - y^3/3)`; with the coefficients of the code (`1/lambda` times the tensor of
`KInverse::value_list` acts as the identity on `u`) it satisfies `u = -grad p`, and
`-div u = RightHandSide::value(x,y) = 2*y*rho_f`. -/
theorem exact_solution_solves_darcy (x y : ℝ) :
    exact_velocity x y = ![0, data.rho_f * (1 - y ^ 2)]
    ∧ exact_pressure x y = -data.rho_f * (y - y ^ 3 / 3)
    ∧ (∀ k, Tensor1.contract (Tensor1.scale (1 / data.lambda) (exact_velocity x y))
          (KInverse.value_list (fun _ : Fin 1 => ![x, y]) 0) k = exact_velocity x y k)
    ∧ HasDerivAt (fun t => exact_pressure t y) (-(exact_velocity x y 0)) x
    ∧ HasDerivAt (fun t => exact_pressure x t) (-(exact_velocity x y 1)) y
    ∧ HasDerivAt (fun t => exact_velocity t y 0) 0 x
    ∧ HasDerivAt (fun t => exact_velocity x t 1) (-(2 * y * data.rho_f)) y
    ∧ -((0 : ℝ) + -(2 * y * data.rho_f)) = RightHandSide.value (by decide : 1 < 2) ![x, y]
    ∧ RightHandSide.value (by decide : 1 < 2) ![x, y] = 2 * y * data.rho_f := by
  refine ⟨?_, ?_, ?_, ?_, ?_, ?_, ?_, ?_, ?_⟩
  · rw [exact_velocity_eq]
    ring_nf
  · rw [exact_pressure_eq]
    ring
  · intro k
    unfold Tensor1.contract Tensor1.scale
    simp only [KInverse_value_list_eq, data.lambda]
    simp [Finset.sum_ite_eq]
  · simp only [exact_pressure_eq, exact_velocity_eq]
    simpa using hasDerivAt_const x (-data.rho_f * (y - 1 / 3 * y * y * y))
  · simp only [exact_pressure_eq, exact_velocity_eq, data.rho_f]
    have h := ((hasDerivAt_id y).sub (((hasDerivAt_id y).pow 3).const_mul (1 / 3 : ℝ))).neg
    convert h using 1
    · funext t
      simp
      ring
    · simp
      ring
  · simp only [exact_velocity_eq]
    simpa using hasDerivAt_const x (0 : ℝ)
  · simp only [exact_velocity_eq, data.rho_f]
    have h := ((hasDerivAt_const y (1 : ℝ)).sub ((hasDerivAt_id y).pow 2))
    convert h using 1
    · funext t
      simp
      ring
    · simp
  · simp [RightHandSide.value]
  · simp [RightHandSide.value]

/-- C11: on the real plane, with `left = 0`, `bottom = 0`, `top = 1` and `right` the `double`
nearest to π, the boundary data of the program are those of the reference of `ExactSolution`:
for every `x` the exact pressure at `y = top` is `PressureBoundaryValues::value = -2/3 * rho_f`;
the exact outward normal flux `u . n` at `y = bottom`, `n = (0,-1)`, is `-rho_f`, the value
Pass B puts in `boundary_values_flux2`; and for every `y` the exact normal flux at `x = left`,
`n = (-1,0)`, and at `x = right`, `n = (1,0)`, is `0`, the value Pass A puts in
`boundary_values_flux`. -/
theorem boundary_data_agree_with_exact_solution (x y : ℝ) (n_dofs : Nat) (sel : Nat → Bool)
    (d : Nat) :
    ((data.left : ℝ) = 0 ∧ (data.bottom : ℝ) = 0 ∧ (data.top : ℝ) = 1
      ∧ |(data.right : ℝ) - Real.pi| < 1 / 10 ^ 15)
    ∧ exact_pressure x data.top = PressureBoundaryValues.value (![x, data.top] : Point ℝ 2)
    ∧ PressureBoundaryValues.value (![x, data.top] : Point ℝ 2) = -2 / 3 * data.rho_f
    ∧ Tensor1.dot (exact_velocity x data.bottom) ![0, -1] = -data.rho_f
    ∧ StdMap.find (boundary_values_flux2 n_dofs sel : StdMap ℝ) d
        = (if d < n_dofs ∧ sel d = true then
            some (Tensor1.dot (exact_velocity x data.bottom) ![0, -1]) else none)
    ∧ Tensor1.dot (exact_velocity data.left y) ![-1, 0] = 0
    ∧ Tensor1.dot (exact_velocity data.right y) ![1, 0] = 0
    ∧ StdMap.find (boundary_values_flux n_dofs sel : StdMap ℝ) d
        = (if d < n_dofs ∧ sel d = true then
            some (Tensor1.dot (exact_velocity data.left y) ![-1, 0]) else none)
    ∧ StdMap.find (boundary_values_flux n_dofs sel : StdMap ℝ) d
        = (if d < n_dofs ∧ sel d = true then
            some (Tensor1.dot (exact_velocity data.right y) ![1, 0]) else none) := by
  have hbottom : Tensor1.dot (exact_velocity x (data.bottom : ℝ)) ![0, -1] = -data.rho_f := by
    rw [dot_two, exact_velocity_eq]
    simp [data.bottom]
  have hleft : Tensor1.dot (exact_velocity (data.left : ℝ) y) ![-1, 0] = 0 := by
    rw [dot_two, exact_velocity_eq]
    simp
  have hright : Tensor1.dot (exact_velocity (data.right : ℝ) y) ![1, 0] = 0 := by
    rw [dot_two, exact_velocity_eq]
    simp
  refine ⟨⟨rfl, rfl, rfl, ?_⟩, ?_, rfl, hbottom, ?_, hleft, hright, ?_, ?_⟩
  · rw [abs_lt]
    have h1 := Real.pi_gt_d20
    have h2 := Real.pi_lt_d20
    constructor
    · norm_num [data.right] at h2 ⊢
      linarith
    · norm_num [data.right] at h1 ⊢
      linarith
  · rw [exact_pressure_eq]
    simp only [PressureBoundaryValues.value, data.top, data.rho_f]
    norm_num
  · rw [hbottom]
    unfold boundary_values_flux2
    rw [find_fill]
  · rw [hleft]
    unfold boundary_values_flux
    rw [find_fill]
  · rw [hright]
    unfold boundary_values_flux
    rw [find_fill]

/-- C12 fails on the code. The write of Pass A, at index `dim`, is inside its vector of
`dim+1` entries for every `dim`. The write of Pass B, at index `dim+1`, is outside its vector
of `dim+1` entries for every `dim`: a range-checked write fails, and the mask passed to the dof
selection is the vector as it was filled, all `false`, not the mask with the last entry set. In
the dimension `2` of the program the write is at index `3` of a vector of length `3`. -/
theorem componentVector2_write_out_of_range :
    (∀ dim, componentVector_index dim < (List.replicate (dim + 1) true).length
      ∧ checked_write (List.replicate (dim + 1) true) (componentVector_index dim) false
          = some (componentVector dim))
    ∧ (∀ dim, ¬ componentVector2_index dim < (List.replicate (dim + 1) false).length
      ∧ checked_write (List.replicate (dim + 1) false) (componentVector2_index dim) true = none
      ∧ componentVector2 dim
          = (List.replicate (dim + 1) false).set (componentVector2_index dim) true
      ∧ componentVector2 dim = List.replicate (dim + 1) false
      ∧ componentVector2 dim ≠ (List.replicate (dim + 1) false).set dim true)
    ∧ (componentVector2_index data.dimension = 3
      ∧ (List.replicate (data.dimension + 1) false).length = 3
      ∧ componentVector2 data.dimension = [false, false, false]
      ∧ (List.replicate (data.dimension + 1) false).set data.dimension true
          = [false, false, true]) := by
  refine ⟨?_, ?_, rfl, rfl, rfl, rfl⟩
  · intro dim
    have h : componentVector_index dim < (List.replicate (dim + 1) true).length := by
      rw [List.length_replicate]
      exact Nat.lt_succ_self dim
    refine ⟨h, ?_⟩
    unfold checked_write
    rw [if_pos h]
    rfl
  · intro dim
    have h : ¬ componentVector2_index dim < (List.replicate (dim + 1) false).length := by
      rw [List.length_replicate]
      exact Nat.lt_irrefl (dim + 1)
    refine ⟨h, ?_, rfl, componentVector2_eq_replicate dim, ?_⟩
    · unfold checked_write
      rw [if_neg h]
    · rw [componentVector2_eq_replicate]
      intro heq
      have h2 := congrArg (fun l => l[dim]?) heq
      simp at h2

end claims

end Step20
